import Mathlib

/-!
Shallow embedding of the `siderophile` source trawler
(`src/main.rs` and `src/trawl_source/mod.rs`).

Paths are modelled as `String` values; `HashMap<PathBuf, u32>` is modelled as
an association list with replace-on-insert semantics (`hm_insert`) and
`HashSet<PathBuf>` as a list with add-if-absent semantics (`hs_insert`).
Filesystem canonicalization is a parameter (`canon`) of the functions that
call it, since it depends on the machine state, not on this code.

A Rust `panic!` / `.expect(...)` is modelled by the `panic` constructor of
`PanicOr`, distinguished from an error value that is *returned* to the
caller (which the source wraps into `RsResolveError`).
-/

namespace Siderophile

/-- Outcome of a Rust computation that can panic: `panic msg` models a
process abort via `panic!`/`expect`, `ok a` a normal return.  A *returned*
error is modelled separately (by `Option`/`Except` in the result type). -/
inductive PanicOr (α : Type) where
  | panic (msg : String)
  | ok (a : α)
  deriving Repr, DecidableEq

/-! ## Rust string primitives used by `parse_rustc_dep_info` -/

/-- Rust `char::is_whitespace`, restricted to the ASCII whitespace that can
occur inside one line of a dep-info file. -/
def isWs (c : Char) : Bool :=
  c = ' ' || c = '\t' || c = '\n' || c = '\r'

/-- Rust `str::split_whitespace` on a list of characters: maximal runs of
non-whitespace characters, in order, with no empty tokens. -/
def splitWsAux (acc : List Char) : List Char → List (List Char)
  | [] => if acc = [] then [] else [acc.reverse]
  | c :: rest =>
      if isWs c then
        if acc = [] then splitWsAux [] rest
        else acc.reverse :: splitWsAux [] rest
      else splitWsAux (c :: acc) rest

def splitWs (s : List Char) : List (List Char) :=
  splitWsAux [] s

/-- Rust `l.find(": ")` followed by `(&l[..pos], &l[pos + 2..])`: split a
line at the *first* occurrence of the two-character separator `": "`,
returning the target part and the dependency part, or `none` when the
separator does not occur (such a line is skipped by `filter_map`). -/
def splitColonSpace : List Char → Option (List Char × List Char)
  | [] => none
  | ':' :: ' ' :: rest => some ([], rest)
  | c :: rest =>
      (splitColonSpace rest).map (fun p => (c :: p.1, p.2))

/-- The inner `while file.ends_with('\\')` loop of `parse_rustc_dep_info`
fused with the outer `while let Some(s) = deps.next()` loop: consume the
current token `file`, re-joining it with following tokens while it ends in
a backslash (pop the backslash, push a space, append the next token); then
move on to the remaining tokens.  `none` models the
`deps.next().expect("malformed dep-info format, trailing \\")` panic when
no following token exists. -/
def depTokensGo : List Char → List (List Char) → Option (List (List Char))
  | file, [] => if file.getLast? = some '\\' then none else some [file]
  | file, d :: rest' =>
      if file.getLast? = some '\\' then
        depTokensGo (file.dropLast ++ ' ' :: d) rest'
      else (depTokensGo d rest').map (file :: ·)

/-- The token-joining pass of `parse_rustc_dep_info` over the
whitespace-separated tokens of the dependency part of one line. -/
def depTokens (toks : List (List Char)) : Option (List (List Char)) :=
  match toks with
  | [] => some []
  | s :: rest => depTokensGo s rest

/-- The panic message of the `.expect(...)` at `mod.rs:334`. -/
def depPanicMsg : String := "malformed dep-info format, trailing \\"

/-- Processing of one line of a dep-info file, after the `filter_map` has
kept only lines containing `": "`: `none` when the line is skipped,
`some none` when processing the line panics, `some (some (target, deps))`
otherwise. -/
def parseDepLine (l : String) : Option (Option (String × List String)) :=
  match splitColonSpace l.data with
  | none => none
  | some (target, depsPart) =>
      match depTokens (splitWs depsPart) with
      | none => some none
      | some deps =>
          some (some (⟨target⟩, deps.map (fun cs => (⟨cs⟩ : String))))

/-- Function `parse_rustc_dep_info` (`mod.rs:317-341`) applied to the list of lines
of the file contents: lines without `": "` are dropped by the
`filter_map`; each remaining line is split into a target and
whitespace-separated input tokens with backslash continuations re-joined;
the first malformed continuation panics. -/
def parse_rustc_dep_info_lines :
    List String → PanicOr (List (String × List String))
  | [] => .ok []
  | l :: rest =>
      match parseDepLine l with
      | none => parse_rustc_dep_info_lines rest
      | some none => .panic depPanicMsg
      | some (some entry) =>
          match parse_rustc_dep_info_lines rest with
          | .panic m => .panic m
          | .ok xs => .ok (entry :: xs)

/-- Splitting a character list at every `'\n'`; always returns at least
one (possibly empty) segment. -/
def splitOnNl : List Char → List (List Char)
  | [] => [[]]
  | c :: rest =>
      match splitOnNl rest with
      | [] => [[]]
      | seg :: segs =>
          if c = '\n' then [] :: seg :: segs else (c :: seg) :: segs

/-- Stripping one trailing `'\r'` (the first half of a `"\r\n"` line
ending). -/
def stripCr (l : List Char) : List Char :=
  if l.getLast? = some '\r' then l.dropLast else l

/-- Rust `str::lines`: split on `'\n'` with `"\r\n"` also accepted as a
line ending, the final line ending optional; a trailing `'\r'` is
stripped only from segments actually terminated by a `'\n'`. -/
def rustLines (s : String) : List String :=
  let segs := splitOnNl s.data
  let body := segs.dropLast.map stripCr
  let tail :=
    match segs.getLast? with
    | some [] => ([] : List (List Char))
    | some l => [l]
    | none => []
  (body ++ tail).map (fun l => (⟨l⟩ : String))

/-- Function `parse_rustc_dep_info` on file contents (reading the file from disk is
modelled by passing its contents). -/
def parse_rustc_dep_info (contents : String) :
    PanicOr (List (String × List String)) :=
  parse_rustc_dep_info_lines (rustLines contents)

/-! ## The shared path→count map (`HashMap<PathBuf, u32>`) -/

/-- Rust `HashMap::insert`: replace the value when the key is present
(`hm.insert(p, 0)` at `mod.rs:302` and `mod.rs:308` overwrites an existing
entry), append otherwise. -/
def hm_insert (m : List (String × Nat)) (k : String) (v : Nat) :
    List (String × Nat) :=
  if m.any (fun e => e.1 = k) then
    m.map (fun e => if e.1 = k then (k, v) else e)
  else m ++ [(k, v)]

/-- Rust `HashMap::get`. -/
def hm_lookup (m : List (String × Nat)) (k : String) : Option Nat :=
  (m.find? (fun e => e.1 = k)).map (·.2)

def hm_keys (m : List (String × Nat)) : List String := m.map (·.1)

/-- Rust `rs_files_used.get_mut(p).map(|c| *c += 1)` (`mod.rs:223`):
increment the count of `p` when present, do nothing otherwise. -/
def bumpCount (m : List (String × Nat)) (p : String) : List (String × Nat) :=
  m.map (fun e => if e.1 = p then (e.1, e.2 + 1) else e)

/-! ## `resolve_rs_file_deps` (`mod.rs:249-311`), reconciliation core

The filesystem walk over the recorded output directories is modelled by
the list `depFiles` of the contents of every `.d` file found there, and
`ws_root.join(pb).canonicalize()` by the parameter `canon` (assumed to
succeed: a canonicalization failure is a returned `RsResolveError::Io`
that aborts the whole reconciliation). -/

/-- Insertion of all input paths of one parsed dep file:
`deps.into_iter().flat_map(|t| t.1)`, joined, canonicalized and inserted
with count 0 (`mod.rs:295-304`). -/
def insertDeps (canon : String → String) (m : List (String × Nat))
    (deps : List (String × List String)) : List (String × Nat) :=
  (deps.flatMap (·.2)).foldl (fun acc t => hm_insert acc (canon t) 0) m

/-- The loop over the dep-listing files found in the output directories:
parse each and insert its inputs; a parse panic aborts. -/
def depFilesFold (canon : String → String) (m : List (String × Nat)) :
    List String → PanicOr (List (String × Nat))
  | [] => .ok m
  | f :: rest =>
      match parse_rustc_dep_info f with
      | .panic msg => .panic msg
      | .ok deps => depFilesFold canon (insertDeps canon m deps) rest

/-- Reconciliation tail of `resolve_rs_file_deps` (`mod.rs:282-310`): fold
the dep-listing files into an empty map, then insert the (already
canonical) `.rs` paths intercepted from the rustc invocations, each with
count 0. -/
def resolve_rs_file_deps (canon : String → String) (depFiles : List String)
    (rs_files : List String) : PanicOr (List (String × Nat)) :=
  match depFilesFold canon [] depFiles with
  | .panic msg => .panic msg
  | .ok hm => .ok (rs_files.foldl (fun acc p => hm_insert acc p 0) hm)

/-! ## Source file classification (`mod.rs:125-178`) -/

/-- Enum `cargo::core::manifest::TargetKind`, as matched at `mod.rs:158-168`. -/
inductive TargetKind where
  | Lib
  | Bin
  | Test
  | Bench
  | ExampleLib
  | ExampleBin
  | CustomBuild
  deriving Repr, DecidableEq

/-- The `RsFile` classification enum (`mod.rs:84-96`); the wrapped paths
are canonical. -/
inductive RsFile where
  | LibRoot (p : String)
  | BinRoot (p : String)
  | CustomBuildRoot (p : String)
  | Other (p : String)
  deriving Repr, DecidableEq

/-- Method `RsFile::as_path_buf` (`mod.rs:99-106`). -/
def RsFile.as_path_buf : RsFile → String
  | .LibRoot p => p
  | .BinRoot p => p
  | .CustomBuildRoot p => p
  | .Other p => p

/-- Function `into_rs_code_file` (`mod.rs:158-168`). -/
def into_rs_code_file (kind : TargetKind) (path : String) : RsFile :=
  match kind with
  | .Lib => .LibRoot path
  | .Bin => .BinRoot path
  | .Test => .Other path
  | .Bench => .Other path
  | .ExampleLib => .Other path
  | .ExampleBin => .Other path
  | .CustomBuild => .CustomBuildRoot path

/-- A declared build target as the classifier sees it: its kind, its
declared entry path (`t.src_path().path()`, `none` when absent) and
whether that path exists on disk (`path.exists()`). -/
structure RTarget where
  kind : TargetKind
  src_path : Option String
  existsOnDisk : Bool
  deriving Repr, DecidableEq

/-- A package as the classifier sees it: its id name, the canonical `.rs`
paths that `find_rs_files_in_dir(pack.root())` yields, and its declared
targets. -/
structure RPackage where
  name : String
  root_rs_files : List String
  targets : List RTarget
  deriving Repr, DecidableEq

/-- Step `canon_targets.entry(canon).or_insert_with(Vec::new); targets.push(t)`
(`mod.rs:141-142`): append the target to the entry of its canonical path,
creating the entry when absent. -/
def ctPush (m : List (String × List RTarget)) (k : String) (t : RTarget) :
    List (String × List RTarget) :=
  if m.any (fun e => e.1 = k) then
    m.map (fun e => if e.1 = k then (e.1, e.2 ++ [t]) else e)
  else m ++ [(k, [t])]

/-- One iteration of the first loop of `find_rs_files_in_package`
(`mod.rs:128-143`): a target without a source path, or whose path does
not exist on disk, is skipped (`continue`); otherwise it is appended to
the group of its canonical entry path. -/
def ctStep (canon : String → String) (m : List (String × List RTarget))
    (t : RTarget) : List (String × List RTarget) :=
  match t.src_path with
  | none => m
  | some p => if t.existsOnDisk then ctPush m (canon p) t else m

/-- The `canon_targets` map built by the first loop of
`find_rs_files_in_package` (`mod.rs:127-143`). -/
def canonTargets (canon : String → String) (targets : List RTarget) :
    List (String × List RTarget) :=
  targets.foldl (ctStep canon) []

/-- Function `find_rs_files_in_package` (`mod.rs:125-156`): every walked file whose
canonical path matches no target becomes `Other`; then every target of
every canonical-path group is emitted through `into_rs_code_file`, one
record per target. -/
def find_rs_files_in_package (canon : String → String) (pack : RPackage) :
    List RsFile :=
  pack.root_rs_files.filterMap
      (fun p =>
        if (canonTargets canon pack.targets).any (fun e => e.1 = p) then none
        else some (RsFile.Other p))
    ++ (canonTargets canon pack.targets).flatMap
        (fun e => e.2.map (fun t => into_rs_code_file t.kind e.1))

/-- Function `find_rs_files_in_packages` (`mod.rs:170-178`): pair each package's
classified files with the package id. -/
def find_rs_files_in_packages (canon : String → String)
    (packs : List RPackage) : List (String × RsFile) :=
  packs.flatMap (fun pack =>
    (find_rs_files_in_package canon pack).map (fun f => (pack.name, f)))

/-! ## `find_unsafe_in_packages` (`mod.rs:206-245`), the scanner loop

The external parser capability `ast_walker::find_unsafe_in_file` is a
parameter `fuif` taking the crate name, the file path and the
test-inclusion switch, and returning the unsafe items found or a parse
error. -/

/-- Enum `ast_walker::IncludeTests`. -/
inductive IncludeTests where
  | Yes
  | No
  deriving Repr, DecidableEq

/-- Expression `pack_id.name().as_str().replace("-", "_")` (`mod.rs:225`). -/
def crateName (packName : String) : String :=
  packName.map (fun c => if c = '-' then '_' else c)

/-- What the scanner loop produces: the final path→count map, the lines
written to the output file (one per unsafe item, streamed), and the
warnings logged for files that failed to parse. -/
structure ScanOutput where
  rs_files_used : List (String × Nat)
  out_lines : List String
  warnings : List String
  deriving Repr, DecidableEq

/-- The loop body of `find_unsafe_in_packages` (`mod.rs:215-242`) over the
classified `(package id, file)` pairs: bump the count of the file's path
when it is a key of `rs_files_used`, then parse the file;
on success stream its items to the output, on failure warn and continue
when partial results are allowed, and panic otherwise. -/
def find_unsafe_in_packages
    (fuif : String → String → IncludeTests → Except String (List String))
    (include_tests : IncludeTests) (allowPartialResults : Bool) :
    List (String × RsFile) → List (String × Nat) → PanicOr ScanOutput
  | [], rs_files_used => .ok ⟨rs_files_used, [], []⟩
  | (pack_name, rs_code_file) :: rest, rs_files_used =>
      let p := rs_code_file.as_path_buf
      let m := bumpCount rs_files_used p
      match fuif (crateName pack_name) p include_tests with
      | .ok items =>
          match find_unsafe_in_packages fuif include_tests allowPartialResults
              rest m with
          | .panic msg => .panic msg
          | .ok out => .ok ⟨out.rs_files_used, items ++ out.out_lines, out.warnings⟩
      | .error e =>
          if allowPartialResults then
            match find_unsafe_in_packages fuif include_tests allowPartialResults
                rest m with
            | .panic msg => .panic msg
            | .ok out =>
                .ok ⟨out.rs_files_used, out.out_lines,
                  ("Failed to parse file: " ++ p ++ ", " ++ e ++ ". Continuing...")
                    :: out.warnings⟩
          else .panic ("Failed to parse file: " ++ p ++ ", " ++ e ++ " ")

/-- The scanning stage as invoked on whole packages: classify every
package's files, then run the scanner loop
(`find_unsafe_in_packages`, `mod.rs:213-214`). -/
def find_unsafe_in_packages_full (canon : String → String)
    (fuif : String → String → IncludeTests → Except String (List String))
    (include_tests : IncludeTests) (allowPartialResults : Bool)
    (packs : List RPackage) (rs_files_used : List (String × Nat)) :
    PanicOr ScanOutput :=
  find_unsafe_in_packages fuif include_tests allowPartialResults
    (find_rs_files_in_packages canon packs) rs_files_used

/-! ## The custom executor (`mod.rs:343-450`)

The `Mutex` taken at `mod.rs:424-427` makes the whole recording of one
invocation (its `.rs` arguments and its `--out-dir` argument) a single
critical section, released before the real rustc call runs.  Parallel
invocations therefore serialize their recordings in some order: an
interleaving of N invocations is modelled as running `exec` sequentially
over some permutation of the N invocations, each call being one atomic
state transition. -/

/-- Struct `CustomExecutorInnerContext` (`mod.rs:343-351`): the two `HashSet`s
behind the mutex, modelled as duplicate-free insertion-ordered lists. -/
structure InnerCtx where
  rs_file_args : List String
  out_dir_args : List String
  deriving Repr, DecidableEq

/-- Rust `HashSet::insert`: add the element when absent. -/
def hs_insert (s : List String) (x : String) : List String :=
  if x ∈ s then s else s ++ [x]

/-- Enum `CustomExecutorError` (`mod.rs:373-379`); the mutex-poisoning variant
cannot arise in the sequential model. -/
inductive CustomExecutorError where
  | OutDirKeyMissing
  | OutDirValueMissing
  | Io (raw_path : String)
  deriving Repr, DecidableEq

/-- Expression `s.to_string_lossy().to_lowercase().ends_with(".rs")` (`mod.rs:430-431`). -/
def lowerEndsWithRs (s : String) : Bool :=
  match (s.data.map Char.toLower).reverse with
  | 's' :: 'r' :: '.' :: _ => true
  | _ => false

/-- One rustc invocation as `CustomExecutor::exec` sees it: its argument
list and its own working directory (`cmd.get_cwd()`, `none` when unset). -/
structure Invocation where
  args : List String
  cwd : Option String
  deriving Repr, DecidableEq

/-- The argument loop at `mod.rs:428-438`: for every argument whose
lowercased form ends in `.rs`, canonicalize `cwd.join(arg)` (the parameter
`canon cwd arg`, `none` modelling an `io::Error`) and insert the result
into `rs_file_args`. -/
def insertRsArgs (canon : String → String → Option String) (cwd : String)
    (ctx : InnerCtx) : List String → Except CustomExecutorError InnerCtx
  | [] => .ok ctx
  | a :: rest =>
      if lowerEndsWithRs a then
        match canon cwd a with
        | none => .error (.Io a)
        | some p =>
            insertRsArgs canon cwd
              { ctx with rs_file_args := hs_insert ctx.rs_file_args p } rest
      else insertRsArgs canon cwd ctx rest

/-- Method `CustomExecutor::exec` (`mod.rs:394-443`): locate `--out-dir` and its
value (missing either is an error), resolve the invocation's cwd (falling
back to the executor's own), record every `.rs` argument and the out-dir
into the shared context, then let the real compilation run. -/
def exec (canon : String → String → Option String) (selfCwd : String)
    (ctx : InnerCtx) (inv : Invocation) : Except CustomExecutorError InnerCtx :=
  match inv.args.findIdx? (fun s => s = "--out-dir") with
  | none => .error .OutDirKeyMissing
  | some i =>
      match inv.args.get? (i + 1) with
      | none => .error .OutDirValueMissing
      | some out_dir =>
          let cwd := inv.cwd.getD selfCwd
          match insertRsArgs canon cwd ctx inv.args with
          | .error e => .error e
          | .ok ctx' =>
              .ok { ctx' with out_dir_args := hs_insert ctx'.out_dir_args out_dir }

/-- A serialized build: `exec` applied over the invocations in the order
in which they acquired the mutex. -/
def execAll (canon : String → String → Option String) (selfCwd : String)
    (ctx : InnerCtx) : List Invocation → Except CustomExecutorError InnerCtx
  | [] => .ok ctx
  | inv :: rest =>
      match exec canon selfCwd ctx inv with
      | .error e => .error e
      | .ok ctx' => execAll canon selfCwd ctx' rest

/-! ## Entry points and reporting (`main.rs:127-178`, `mod.rs:581-635`) -/

/-- The hardcoded `let allow_partial_results = true;` at `main.rs:147`. -/
def mainAllowPartialResults : Bool := true

/-- The hardcoded `let allow_partial_results = true;` at `mod.rs:604`. -/
def trawlAllowPartialResults : Bool := true

/-- The scanning stage exactly as `real_main` in `main.rs` invokes it,
with the hardcoded partial-results flag. -/
def real_main_scan
    (fuif : String → String → IncludeTests → Except String (List String))
    (include_tests : IncludeTests) (pack_code_files : List (String × RsFile))
    (rs_files_used : List (String × Nat)) : PanicOr ScanOutput :=
  find_unsafe_in_packages fuif include_tests mainAllowPartialResults
    pack_code_files rs_files_used

/-- The never-scanned check at `main.rs:164-175` / `mod.rs:621-632`: the
paths of the entries of the scanned map whose count is 0, each of which
produces exactly one `warn!("Dependency file was never scanned: ...")`. -/
def report_never_scanned (rs_files_scanned : List (String × Nat)) :
    List String :=
  (rs_files_scanned.filter (fun e => e.2 = 0)).map (·.1)

/-- The tail of `real_main` (`main.rs:164-178`): emit the never-scanned
warnings, then return `Ok(())` unconditionally — the `CliResult` does not
depend on the warnings. -/
def real_main_report (rs_files_scanned : List (String × Nat)) :
    List String × Except String Unit :=
  (report_never_scanned rs_files_scanned, Except.ok ())

/-! ## Derived notions used to state the claims -/

/-- The input paths a dep-listing file contributes (empty when parsing it
panics). -/
def fileInputs (f : String) : List String :=
  match parse_rustc_dep_info f with
  | .panic _ => []
  | .ok deps => deps.flatMap (·.2)

/-- Two reconciliation outcomes reconciled from the same data agree: both
panic, or both succeed with the same set of canonical paths. -/
def keySetEq :
    PanicOr (List (String × Nat)) → PanicOr (List (String × Nat)) → Prop
  | .ok m₁, .ok m₂ => ∀ p, p ∈ hm_keys m₁ ↔ p ∈ hm_keys m₂
  | .panic _, .panic _ => True
  | _, _ => False

/-- The `--out-dir` value `exec` extracts from an invocation (`mod.rs:404-412`). -/
def outDirOf (inv : Invocation) : Option String :=
  match inv.args.findIdx? (fun s => s = "--out-dir") with
  | none => none
  | some i => inv.args.get? (i + 1)

/-- The canonical `.rs` paths the argument loop of `exec` extracts, in
order (`none` when a canonicalization fails). -/
def rsArgsPaths (canon : String → String → Option String) (cwd : String) :
    List String → Option (List String)
  | [] => some []
  | a :: rest =>
      if lowerEndsWithRs a then
        match canon cwd a with
        | none => none
        | some p => (rsArgsPaths canon cwd rest).map (p :: ·)
      else rsArgsPaths canon cwd rest

/-- An invocation that successfully registers exactly the source path `p`
(and some output directory): its `--out-dir` value exists and its `.rs`
arguments canonicalize to the single path `p`. -/
def invRegisters (canon : String → String → Option String) (selfCwd : String)
    (inv : Invocation) (p : String) : Prop :=
  (outDirOf inv).isSome = true ∧
    rsArgsPaths canon (inv.cwd.getD selfCwd) inv.args = some [p]

instance (canon : String → String → Option String) (selfCwd : String)
    (inv : Invocation) (p : String) :
    Decidable (invRegisters canon selfCwd inv p) := by
  unfold invRegisters
  infer_instance

/-! ## Lemmas about the dep-info parser -/

theorem parseDepLine_eq_none {l : String}
    (h : splitColonSpace l.data = none) : parseDepLine l = none := by
  simp [parseDepLine, h]

theorem parseDepLine_ne_none {l : String}
    (h : (splitColonSpace l.data).isSome = true) : parseDepLine l ≠ none := by
  unfold parseDepLine
  cases hs : splitColonSpace l.data with
  | none => rw [hs] at h; simp at h
  | some pr =>
      cases hd : depTokens (splitWs pr.2) <;> simp [hd]

theorem parse_lines_filter_sep (ls : List String) :
    parse_rustc_dep_info_lines
        (ls.filter (fun l => (splitColonSpace l.data).isSome)) =
      parse_rustc_dep_info_lines ls := by
  induction ls with
  | nil => rfl
  | cons l rest ih =>
      by_cases h : (splitColonSpace l.data).isSome = true
      · rw [List.filter_cons_of_pos (by simpa using h)]
        simp only [parse_rustc_dep_info_lines]
        cases hl : parseDepLine l with
        | none => exact ih
        | some o =>
            cases o with
            | none => rfl
            | some entry => rw [ih]
      · have hnone : splitColonSpace l.data = none := by
          cases hs : splitColonSpace l.data with
          | none => rfl
          | some pr => rw [hs] at h; simp at h
        rw [List.filter_cons_of_neg (by simpa using h)]
        rw [ih]
        simp only [parse_rustc_dep_info_lines, parseDepLine_eq_none hnone]

/-- C10: a line of a dependency-listing file without the separator `": "`
is silently dropped by the `filter_map` of `parse_rustc_dep_info`
(`mod.rs:321`): parsing any list of lines is the same as parsing only its
separator-carrying lines, and a separator-free line alone contributes no
product, no input paths, and no error. -/
theorem c10_no_separator_lines_skipped :
    (∀ ls : List String,
        parse_rustc_dep_info_lines ls =
          parse_rustc_dep_info_lines
            (ls.filter (fun l => (splitColonSpace l.data).isSome)))
    ∧ ∀ l : String, splitColonSpace l.data = none →
        parse_rustc_dep_info_lines [l] = PanicOr.ok [] := by
  constructor
  · intro ls
    exact (parse_lines_filter_sep ls).symm
  · intro l h
    simp only [parse_rustc_dep_info_lines, parseDepLine_eq_none h]

/-- Witness for C10: the concrete line `"garbage line"` has no `": "`, is
skipped, and a file mixing it with a well-formed line parses as if it were
absent. -/
theorem c10_witness :
    parse_rustc_dep_info_lines ["garbage line"] = PanicOr.ok [] :=
  c10_no_separator_lines_skipped.2 "garbage line" (by decide)

/-- C4: the dep-info line `out/obj: a\ b.rs c.rs` parses to the product
`out/obj` and exactly the two inputs `a b.rs` (backslash continuation
re-joined with a space) and `c.rs`; at the reconciliation level the
product name is discarded and only the two inputs enter the path set. -/
theorem c4_continuation_parsing :
    parse_rustc_dep_info "out/obj: a\\ b.rs c.rs" =
      PanicOr.ok [("out/obj", ["a b.rs", "c.rs"])]
    ∧ resolve_rs_file_deps id ["out/obj: a\\ b.rs c.rs"] [] =
        PanicOr.ok [("a b.rs", 0), ("c.rs", 0)] := by
  constructor <;> decide

/-- C3 (code bug evidence): a dep-info line whose final input token ends
in a trailing backslash with no following token makes
`parse_rustc_dep_info` abort via the `.expect(...)` at `mod.rs:334` — a
panic whose message is the constant `"malformed dep-info format,
trailing \"` — so `resolve_rs_file_deps` panics instead of returning the
`RsResolveError::DepParse` that would name the offending file
(`mod.rs:293-294`); the message is the same whatever the file. -/
theorem c3_trailing_backslash_panics :
    parse_rustc_dep_info "out/obj: a\\" = PanicOr.panic depPanicMsg
    ∧ resolve_rs_file_deps id ["out/obj: a\\"] [] = PanicOr.panic depPanicMsg
    ∧ resolve_rs_file_deps id ["entirely/different: b\\"] [] =
        PanicOr.panic depPanicMsg := by
  refine ⟨by decide, by decide, by decide⟩

/-! ## Lemmas about the path→count map -/

theorem hm_lookup_insert_self (m : List (String × Nat)) (k : String) (v : Nat) :
    hm_lookup (hm_insert m k v) k = some v := by
  unfold hm_insert hm_lookup
  by_cases h : m.any (fun e => e.1 = k)
  · rw [if_pos h]
    induction m with
    | nil => simp at h
    | cons e rest ih =>
        by_cases he : e.1 = k
        · simp [List.find?, he]
        · have hrest : rest.any (fun e => e.1 = k) = true := by
            simpa [he] using h
          simpa [List.find?, he] using ih hrest
  · rw [if_neg h]
    induction m with
    | nil => simp [List.find?]
    | cons e rest ih =>
        have he : ¬(e.1 = k) := by
          intro hk
          exact h (by simp [List.any_cons, hk])
        have hrest : ¬(rest.any (fun e => e.1 = k) = true) := by
          intro hr
          exact h (by simp [List.any_cons, hr])
        simpa [List.find?, he] using ih hrest

theorem hm_insert_mem {m : List (String × Nat)} {k : String} {v : Nat}
    {e : String × Nat} (he : e ∈ hm_insert m k v) : e ∈ m ∨ e = (k, v) := by
  unfold hm_insert at he
  split at he
  · rcases List.mem_map.mp he with ⟨x, hx, hfx⟩
    by_cases hxk : x.1 = k
    · rw [if_pos hxk] at hfx
      right
      exact hfx.symm
    · rw [if_neg hxk] at hfx
      left
      rw [← hfx]
      exact hx
  · rcases List.mem_append.mp he with h | h
    · left; exact h
    · right; simpa using h

theorem foldl_insert_zero (f : String → String) (ts : List String)
    (m : List (String × Nat)) (h : ∀ e ∈ m, e.2 = 0) :
    ∀ e ∈ ts.foldl (fun acc t => hm_insert acc (f t) 0) m, e.2 = 0 := by
  induction ts generalizing m with
  | nil => exact h
  | cons t rest ih =>
      intro e he
      refine ih (hm_insert m (f t) 0) ?_ e he
      intro e' he'
      rcases hm_insert_mem he' with h1 | h1
      · exact h e' h1
      · rw [h1]

theorem depFilesFold_zero (canon : String → String) (files : List String)
    (m hm' : List (String × Nat)) (h : ∀ e ∈ m, e.2 = 0)
    (hok : depFilesFold canon m files = PanicOr.ok hm') :
    ∀ e ∈ hm', e.2 = 0 := by
  induction files generalizing m with
  | nil =>
      have : m = hm' := by
        simpa [depFilesFold] using hok
      rw [← this]; exact h
  | cons f rest ih =>
      simp only [depFilesFold] at hok
      cases hp : parse_rustc_dep_info f with
      | panic msg => rw [hp] at hok; cases hok
      | ok deps =>
          rw [hp] at hok
          exact ih (insertDeps canon m deps)
            (foldl_insert_zero canon (deps.flatMap (·.2)) m h) hok

theorem resolve_values_zero (canon : String → String)
    (depFiles rs : List String) (m : List (String × Nat))
    (h : resolve_rs_file_deps canon depFiles rs = PanicOr.ok m) :
    ∀ e ∈ m, e.2 = 0 := by
  unfold resolve_rs_file_deps at h
  cases hf : depFilesFold canon [] depFiles with
  | panic msg => rw [hf] at h; cases h
  | ok hm =>
      rw [hf] at h
      injection h with h
      rw [← h]
      exact foldl_insert_zero (fun p => p) rs hm
        (depFilesFold_zero canon depFiles [] hm (by simp) hf)

theorem hm_lookup_mem {m : List (String × Nat)} {k : String} {c : Nat}
    (h : hm_lookup m k = some c) : (k, c) ∈ m := by
  unfold hm_lookup at h
  cases hf : m.find? (fun e => e.1 = k) with
  | none => rw [hf] at h; cases h
  | some e =>
      rw [hf] at h
      have hmem := List.mem_of_find?_eq_some hf
      have hk : e.1 = k := by simpa using List.find?_some hf
      have hc : e.2 = c := by simpa using h
      have : e = (k, c) := by
        rw [← hk, ← hc]
      rw [← this]
      exact hmem

/-- C2 counterexample: re-inserting a present canonical path does *not*
preserve the stored count in general — `HashMap::insert` replaces the
value, so a count of 5 is reset to 0 by the `hm.insert(p, 0)` of
`resolve_rs_file_deps`. -/
theorem c2_counterexample :
    hm_lookup [("src/lib.rs", 5)] "src/lib.rs" = some 5
    ∧ ¬ hm_lookup (hm_insert [("src/lib.rs", 5)] "src/lib.rs" 0) "src/lib.rs"
        = some 5 := by
  decide

/-- C2 amended: every count stored in a map produced by reconciliation is
0, so for maps actually arising during `resolve_rs_file_deps` (all
insertions precede any count increment) re-inserting a present path with
count 0 leaves that path's stored count unchanged. -/
theorem c2_amended_reinsertion_preserves_reconciliation_counts
    (canon : String → String) (depFiles rs : List String)
    (m : List (String × Nat))
    (h : resolve_rs_file_deps canon depFiles rs = PanicOr.ok m)
    (p : String) (c : Nat) (hc : hm_lookup m p = some c) :
    c = 0 ∧ hm_lookup (hm_insert m p 0) p = some c := by
  have hz : c = 0 := resolve_values_zero canon depFiles rs m h (p, c)
    (hm_lookup_mem hc)
  refine ⟨hz, ?_⟩
  rw [hz]
  exact hm_lookup_insert_self m p 0

/-- Witness for the amended C2 at a concrete reconciliation. -/
theorem c2_witness :
    0 = 0 ∧
      hm_lookup (hm_insert [("a.rs", 0)] "a.rs" 0) "a.rs" = some 0 :=
  c2_amended_reinsertion_preserves_reconciliation_counts
    id ["out: a.rs"] [] [("a.rs", 0)] (by decide) "a.rs" 0 (by decide)

/-! ## The never-scanned report (C6) -/

theorem report_mem {m : List (String × Nat)} {p : String}
    (h : p ∈ report_never_scanned m) : (p, 0) ∈ m := by
  unfold report_never_scanned at h
  rcases List.mem_map.mp h with ⟨e, he, hfst⟩
  rcases List.mem_filter.mp he with ⟨hm, hz⟩
  have hz' : e.2 = 0 := by simpa using hz
  have : e = (p, 0) := by rw [← hfst, ← hz']
  rw [← this]
  exact hm

theorem report_not_mem_of_not_key {m : List (String × Nat)} {p : String}
    (h : p ∉ hm_keys m) : p ∉ report_never_scanned m := by
  intro hr
  exact h (List.mem_map.mpr ⟨(p, 0), report_mem hr, rfl⟩)

theorem nodup_keys_value_eq {m : List (String × Nat)} {p : String}
    {a b : Nat} (hnd : (hm_keys m).Nodup) (ha : (p, a) ∈ m)
    (hb : (p, b) ∈ m) : a = b := by
  induction m with
  | nil => cases ha
  | cons e rest ih =>
      rw [hm_keys, List.map_cons, List.nodup_cons] at hnd
      rcases List.mem_cons.mp ha with h1 | h1 <;>
        rcases List.mem_cons.mp hb with h2 | h2
      · exact congrArg Prod.snd (h1.trans h2.symm)
      · exfalso
        exact hnd.1 (List.mem_map.mpr ⟨(p, b), h2, by rw [← h1]⟩)
      · exfalso
        exact hnd.1 (List.mem_map.mpr ⟨(p, a), h1, by rw [← h2]⟩)
      · exact ih hnd.2 h1 h2

theorem report_count_one {m : List (String × Nat)} {p : String}
    (hnd : (hm_keys m).Nodup) (hp : (p, 0) ∈ m) :
    (report_never_scanned m).count p = 1 := by
  induction m with
  | nil => cases hp
  | cons e rest ih =>
      rw [hm_keys, List.map_cons, List.nodup_cons] at hnd
      rcases List.mem_cons.mp hp with h1 | h1
      · have hz : e.2 = 0 := by rw [← h1]
        have hfst : e.1 = p := by rw [← h1]
        have hnotin : p ∉ report_never_scanned rest := by
          refine report_not_mem_of_not_key ?_
          rw [← hfst]
          exact hnd.1
        unfold report_never_scanned
        rw [List.filter_cons_of_pos (by simpa using hz), List.map_cons,
          List.count_cons]
        have : (report_never_scanned rest).count p = 0 :=
          List.count_eq_zero.mpr hnotin
        unfold report_never_scanned at this
        rw [this, hfst]
        simp
      · have hne : e.1 ≠ p := by
          intro hk
          exact hnd.1 (List.mem_map.mpr ⟨(p, 0), h1, by rw [hk]⟩)
        unfold report_never_scanned
        by_cases hz : e.2 = 0
        · rw [List.filter_cons_of_pos (by simpa using hz), List.map_cons,
            List.count_cons]
          have := ih hnd.2 h1
          unfold report_never_scanned at this
          rw [this]
          simp [hne]
        · rw [List.filter_cons_of_neg (by simpa using hz)]
          have := ih hnd.2 h1
          unfold report_never_scanned at this
          rw [this]

/-- C6: for a scanned map with duplicate-free keys (the `HashMap`
invariant), the never-scanned report names each zero-count path exactly
once, names no path whose count is at least 1, and the run's `CliResult`
is `Ok(())` regardless of the warnings (`main.rs:164-178`,
`mod.rs:621-634`). -/
theorem c6_zero_count_warnings (m : List (String × Nat))
    (hnd : (hm_keys m).Nodup) :
    (∀ p, (p, 0) ∈ m → (report_never_scanned m).count p = 1)
    ∧ (∀ p c, (p, c) ∈ m → 1 ≤ c → p ∉ report_never_scanned m)
    ∧ (real_main_report m).2 = Except.ok () := by
  refine ⟨fun p hp => report_count_one hnd hp, ?_, rfl⟩
  intro p c hp hc hr
  have h0 : (p, 0) ∈ m := report_mem hr
  have : c = 0 := nodup_keys_value_eq hnd hp h0
  omega

/-- Witness for C6 at a concrete two-entry map. -/
theorem c6_witness :
    (report_never_scanned [("a.rs", 0), ("b.rs", 2)]).count "a.rs" = 1
    ∧ "b.rs" ∉ report_never_scanned [("a.rs", 0), ("b.rs", 2)]
    ∧ (real_main_report [("a.rs", 0), ("b.rs", 2)]).2 = Except.ok () := by
  have h := c6_zero_count_warnings [("a.rs", 0), ("b.rs", 2)] (by decide)
  exact ⟨h.1 "a.rs" (by decide), h.2.1 "b.rs" 2 (by decide) (by decide), h.2.2⟩

/-! ## The scanner loop with partial results allowed (C1, C9) -/

theorem hm_keys_bumpCount (m : List (String × Nat)) (p : String) :
    hm_keys (bumpCount m p) = hm_keys m := by
  unfold hm_keys bumpCount
  rw [List.map_map]
  apply List.map_congr_left
  intro e _
  by_cases h : e.1 = p <;> simp [h]

theorem hm_keys_foldl_bump (pcf : List (String × RsFile))
    (m : List (String × Nat)) :
    hm_keys (pcf.foldl (fun acc pr => bumpCount acc pr.2.as_path_buf) m) =
      hm_keys m := by
  induction pcf generalizing m with
  | nil => rfl
  | cons pr rest ih => rw [List.foldl_cons, ih, hm_keys_bumpCount]

/-- Full description of the scanner loop when partial results are allowed:
it never panics, every classified file's path bumps the count map, every
classified file is handed to the parser and its items are streamed in
order, and every parse failure becomes one warning. -/
theorem find_unsafe_true_spec
    (fuif : String → String → IncludeTests → Except String (List String))
    (inc : IncludeTests) (pcf : List (String × RsFile))
    (m : List (String × Nat)) :
    find_unsafe_in_packages fuif inc true pcf m =
      PanicOr.ok
        ⟨pcf.foldl (fun acc pr => bumpCount acc pr.2.as_path_buf) m,
         pcf.flatMap (fun pr =>
           match fuif (crateName pr.1) pr.2.as_path_buf inc with
           | .ok items => items
           | .error _ => []),
         pcf.filterMap (fun pr =>
           match fuif (crateName pr.1) pr.2.as_path_buf inc with
           | .ok _ => none
           | .error e => some ("Failed to parse file: " ++ pr.2.as_path_buf
               ++ ", " ++ e ++ ". Continuing..."))⟩ := by
  induction pcf generalizing m with
  | nil => rfl
  | cons pr rest ih =>
      obtain ⟨pk, rsf⟩ := pr
      simp only [find_unsafe_in_packages]
      cases hf : fuif (crateName pk) rsf.as_path_buf inc with
      | ok items =>
          rw [ih]
          simp [hf]
      | error e =>
          rw [ih]
          simp [hf]

/-- C1 counterexample: with an empty reconciled path set (so the single
classified file `/a.rs` belongs to no package of the reconciled set) the
scanner still parses the file and still emits its Finding — the claim that
such a file "is not parsed and produces no Findings" is false. -/
theorem c1_counterexample :
    (∃ out, find_unsafe_in_packages_full id
        (fun _ _ _ => Except.ok ["unsafe_block"]) IncludeTests.No true
        [⟨"pk", ["/a.rs"], []⟩] [] = PanicOr.ok out
      ∧ out.out_lines ≠ [])
    ∧ hm_keys [] = ([] : List String) :=
  ⟨⟨⟨[], ["unsafe_block"], []⟩, by decide, by decide⟩, rfl⟩

/-- C1 amended: the scanner parses *every* classified file of every
package in the package set, whether or not its path is in the reconciled
map — the emitted Findings do not depend on the reconciled map at all;
membership in the reconciled map only controls the count increment (the
map's key set is never changed by scanning). -/
theorem c1_amended_scanner_ignores_reconciled_set (canon : String → String)
    (fuif : String → String → IncludeTests → Except String (List String))
    (inc : IncludeTests) (packs : List RPackage) (m : List (String × Nat)) :
    ∃ out, find_unsafe_in_packages_full canon fuif inc true packs m =
        PanicOr.ok out
      ∧ out.out_lines = (find_rs_files_in_packages canon packs).flatMap
          (fun pr =>
            match fuif (crateName pr.1) pr.2.as_path_buf inc with
            | .ok items => items
            | .error _ => [])
      ∧ hm_keys out.rs_files_used = hm_keys m :=
  ⟨_, find_unsafe_true_spec fuif inc (find_rs_files_in_packages canon packs) m,
    rfl, hm_keys_foldl_bump _ m⟩

/-- C9: both entry points hardcode `allow_partial_results = true`
(`main.rs:147`, `mod.rs:604`), so the scan started from the command line
never reaches the fatal `panic!` branch of `mod.rs:239`: it always
returns, and each per-file parse failure contributes exactly one warning
and nothing else. -/
theorem c9_partial_results_unconditional
    (fuif : String → String → IncludeTests → Except String (List String))
    (inc : IncludeTests) (pcf : List (String × RsFile))
    (m : List (String × Nat)) :
    mainAllowPartialResults = true ∧ trawlAllowPartialResults = true
    ∧ ∃ out, real_main_scan fuif inc pcf m = PanicOr.ok out
        ∧ out.warnings = pcf.filterMap (fun pr =>
            match fuif (crateName pr.1) pr.2.as_path_buf inc with
            | .ok _ => none
            | .error e => some ("Failed to parse file: " ++ pr.2.as_path_buf
                ++ ", " ++ e ++ ". Continuing...")) :=
  ⟨rfl, rfl, _, find_unsafe_true_spec fuif inc pcf m, rfl⟩

/-! ## Classifier lemmas (C5) -/

theorem ctPush_keys (m : List (String × List RTarget)) (k : String)
    (t : RTarget) :
    (ctPush m k t).map (·.1) = m.map (·.1)
    ∨ ((ctPush m k t).map (·.1) = m.map (·.1) ++ [k]
        ∧ k ∉ m.map (·.1)) := by
  unfold ctPush
  by_cases h : m.any (fun e => e.1 = k) = true
  · rw [if_pos h]
    left
    rw [List.map_map]
    apply List.map_congr_left
    intro e _
    by_cases he : e.1 = k <;> simp [he]
  · rw [if_neg h]
    right
    refine ⟨by simp, ?_⟩
    intro hk
    rcases List.mem_map.mp hk with ⟨e, he, hfst⟩
    exact h (List.any_eq_true.mpr ⟨e, he, by simp [hfst]⟩)

theorem ctPush_key_mem {m : List (String × List RTarget)} {k a : String}
    {t : RTarget} (h : a ∈ (ctPush m k t).map (·.1)) :
    a ∈ m.map (·.1) ∨ a = k := by
  rcases ctPush_keys m k t with he | ⟨he, -⟩ <;> rw [he] at h
  · left; exact h
  · rcases List.mem_append.mp h with h1 | h1
    · left; exact h1
    · right; simpa using h1

theorem ctPush_keys_nodup {m : List (String × List RTarget)} {k : String}
    {t : RTarget} (hnd : (m.map (·.1)).Nodup) :
    ((ctPush m k t).map (·.1)).Nodup := by
  rcases ctPush_keys m k t with he | ⟨he, hk⟩ <;> rw [he]
  · exact hnd
  · refine List.Nodup.append hnd (List.nodup_singleton k) ?_
    intro a ha hb
    rw [List.mem_singleton] at hb
    rw [hb] at ha
    exact hk ha

theorem ctPush_group_mem_preserved {m : List (String × List RTarget)}
    {k a : String} {t x : RTarget}
    (h : ∃ e ∈ m, e.1 = a ∧ x ∈ e.2) :
    ∃ e ∈ ctPush m k t, e.1 = a ∧ x ∈ e.2 := by
  rcases h with ⟨e, he, hk, hx⟩
  unfold ctPush
  split
  · refine ⟨if e.1 = k then (e.1, e.2 ++ [t]) else e,
      List.mem_map.mpr ⟨e, he, rfl⟩, ?_⟩
    by_cases hek : e.1 = k
    · rw [if_pos hek]
      exact ⟨hk, List.mem_append_left _ hx⟩
    · rw [if_neg hek]
      exact ⟨hk, hx⟩
  · exact ⟨e, List.mem_append_left _ he, hk, hx⟩

theorem ctPush_group_mem_self (m : List (String × List RTarget)) (k : String)
    (t : RTarget) : ∃ e ∈ ctPush m k t, e.1 = k ∧ t ∈ e.2 := by
  unfold ctPush
  by_cases h : m.any (fun e => e.1 = k) = true
  · rw [if_pos h]
    rcases List.any_eq_true.mp h with ⟨e, he, hek⟩
    have hek' : e.1 = k := by simpa using hek
    exact ⟨(e.1, e.2 ++ [t]), List.mem_map.mpr ⟨e, he, by simp [hek']⟩,
      by simp [hek']⟩
  · rw [if_neg h]
    exact ⟨(k, [t]), List.mem_append_right _ (by simp), rfl, by simp⟩

theorem ctFold_group_preserved (canon : String → String) (ts : List RTarget)
    (m : List (String × List RTarget)) {a : String} {x : RTarget}
    (h : ∃ e ∈ m, e.1 = a ∧ x ∈ e.2) :
    ∃ e ∈ ts.foldl (ctStep canon) m, e.1 = a ∧ x ∈ e.2 := by
  induction ts generalizing m with
  | nil => exact h
  | cons u rest ih =>
      rw [List.foldl_cons]
      apply ih
      unfold ctStep
      cases hsp : u.src_path with
      | none => exact h
      | some p =>
          cases hd : u.existsOnDisk
          · simpa using h
          · simpa using ctPush_group_mem_preserved h

theorem ctFold_group_mem (canon : String → String) (ts : List RTarget)
    (m : List (String × List RTarget)) {t : RTarget} {q : String}
    (ht : t ∈ ts) (hq : t.src_path = some q) (hd : t.existsOnDisk = true) :
    ∃ e ∈ ts.foldl (ctStep canon) m, e.1 = canon q ∧ t ∈ e.2 := by
  induction ts generalizing m with
  | nil => cases ht
  | cons u rest ih =>
      rw [List.foldl_cons]
      rcases List.mem_cons.mp ht with h | h
      · subst h
        apply ctFold_group_preserved
        have hstep : ctStep canon m t = ctPush m (canon q) t := by
          simp [ctStep, hq, hd]
        rw [hstep]
        exact ctPush_group_mem_self m (canon q) t
      · exact ih (ctStep canon m u) h

theorem ctFold_key_mem (canon : String → String) (ts : List RTarget)
    (m : List (String × List RTarget)) {k : String}
    (hk : k ∈ (ts.foldl (ctStep canon) m).map (·.1)) :
    k ∈ m.map (·.1)
    ∨ ∃ t ∈ ts, ∃ q, t.src_path = some q ∧ t.existsOnDisk = true
        ∧ canon q = k := by
  induction ts generalizing m with
  | nil => left; exact hk
  | cons u rest ih =>
      rw [List.foldl_cons] at hk
      rcases ih (ctStep canon m u) hk with h | h
      · unfold ctStep at h
        cases hsp : u.src_path with
        | none => rw [hsp] at h; left; exact h
        | some p =>
            rw [hsp] at h
            cases hd : u.existsOnDisk
            · rw [hd] at h
              simp only [Bool.false_eq_true, if_false] at h
              left; exact h
            · rw [hd] at h
              simp only [if_true] at h
              rcases ctPush_key_mem h with h1 | h1
              · left; exact h1
              · right
                exact ⟨u, List.mem_cons_self u rest, p, hsp, hd, h1.symm⟩
      · right
        rcases h with ⟨t, htm, hrest⟩
        exact ⟨t, List.mem_cons_of_mem u htm, hrest⟩

theorem ctFold_keys_nodup (canon : String → String) (ts : List RTarget)
    (m : List (String × List RTarget)) (hnd : (m.map (·.1)).Nodup) :
    ((ts.foldl (ctStep canon) m).map (·.1)).Nodup := by
  induction ts generalizing m with
  | nil => exact hnd
  | cons u rest ih =>
      rw [List.foldl_cons]
      apply ih
      unfold ctStep
      cases hsp : u.src_path with
      | none => exact hnd
      | some p =>
          cases hd : u.existsOnDisk
          · simpa using hnd
          · simpa using ctPush_keys_nodup hnd

theorem sizes_map_grow (k : String) (t : RTarget)
    (m : List (String × List RTarget)) (hnd : (m.map (·.1)).Nodup)
    (h : m.any (fun e => e.1 = k) = true) :
    ((m.map (fun e => if e.1 = k then (k, e.2 ++ [t]) else e)).map
        (fun e => e.2.length)).sum
      = (m.map (fun e => e.2.length)).sum + 1 := by
  induction m with
  | nil => cases h
  | cons e rest ih =>
      rw [List.map_cons, List.nodup_cons] at hnd
      by_cases hek : e.1 = k
      · have hmap :
            rest.map (fun x => if x.1 = k then (k, x.2 ++ [t]) else x) = rest := by
          refine (List.map_congr_left ?_).trans (List.map_id rest)
          intro x hx
          have hxk : ¬(x.1 = k) := by
            intro hxk
            exact hnd.1 (List.mem_map.mpr ⟨x, hx, by rw [hxk, hek]⟩)
          simp [hxk]
        simp [hek, hmap, List.sum_cons]
        omega
      · have hrest : rest.any (fun x => x.1 = k) = true := by
          simpa [hek] using h
        rw [List.map_cons, List.map_cons, List.sum_cons, List.map_cons,
          List.sum_cons, if_neg hek, ih hnd.2 hrest]
        omega

theorem ctPush_sizes (m : List (String × List RTarget)) (k : String)
    (t : RTarget) (hnd : (m.map (·.1)).Nodup) :
    ((ctPush m k t).map (fun e => e.2.length)).sum
      = (m.map (fun e => e.2.length)).sum + 1 := by
  unfold ctPush
  by_cases h : m.any (fun e => e.1 = k) = true
  · rw [if_pos h]
    have hsg := sizes_map_grow k t m hnd h
    refine Eq.trans ?_ hsg
    congr 1
    congr 1
    apply List.map_congr_left
    intro e _
    by_cases he : e.1 = k <;> simp [he]
  · rw [if_neg h]
    simp

theorem ctFold_sizes (canon : String → String) (ts : List RTarget)
    (m : List (String × List RTarget)) (hnd : (m.map (·.1)).Nodup) :
    ((ts.foldl (ctStep canon) m).map (fun e => e.2.length)).sum
      = (m.map (fun e => e.2.length)).sum
        + (ts.filter (fun t => t.src_path.isSome && t.existsOnDisk)).length := by
  induction ts generalizing m with
  | nil => simp
  | cons u rest ih =>
      rw [List.foldl_cons, List.filter_cons]
      cases hsp : u.src_path with
      | none =>
          have hstep : ctStep canon m u = m := by simp [ctStep, hsp]
          rw [hstep]
          simp only [hsp, Option.isSome_none, Bool.false_and, Bool.false_eq_true,
            if_false]
          exact ih m hnd
      | some p =>
          cases hd : u.existsOnDisk
          · have hstep : ctStep canon m u = m := by simp [ctStep, hsp, hd]
            rw [hstep]
            simp only [hsp, Option.isSome_some, Bool.true_and, hd,
              Bool.false_eq_true, if_false]
            exact ih m hnd
          · have hstep : ctStep canon m u = ctPush m (canon p) u := by
              simp [ctStep, hsp, hd]
            rw [hstep, ih (ctPush m (canon p) u) (ctPush_keys_nodup hnd),
              ctPush_sizes m (canon p) u hnd]
            simp only [hsp, Option.isSome_some, Bool.true_and, hd, if_true]
            rw [List.length_cons]
            omega

theorem target_record_mem (canon : String → String) (pack : RPackage)
    {t : RTarget} {q : String} (ht : t ∈ pack.targets)
    (hq : t.src_path = some q) (hd : t.existsOnDisk = true) :
    into_rs_code_file t.kind (canon q) ∈ find_rs_files_in_package canon pack := by
  obtain ⟨e, he, hk, hx⟩ := ctFold_group_mem canon pack.targets [] ht hq hd
  unfold find_rs_files_in_package
  apply List.mem_append_right
  refine List.mem_flatMap.mpr ⟨e, he, ?_⟩
  refine List.mem_map.mpr ⟨t, hx, ?_⟩
  rw [hk]

theorem other_record_mem (canon : String → String) (pack : RPackage)
    {w : String} (hw : w ∈ pack.root_rs_files)
    (hno : ∀ t ∈ pack.targets, ∀ q, t.src_path = some q →
      t.existsOnDisk = true → canon q ≠ w) :
    RsFile.Other w ∈ find_rs_files_in_package canon pack := by
  unfold find_rs_files_in_package
  apply List.mem_append_left
  refine List.mem_filterMap.mpr ⟨w, hw, ?_⟩
  rw [if_neg]
  intro hany
  rcases List.any_eq_true.mp hany with ⟨e, he, hew⟩
  have hew' : e.1 = w := by simpa using hew
  have hk : w ∈ (canonTargets canon pack.targets).map (·.1) :=
    List.mem_map.mpr ⟨e, he, hew'⟩
  rcases ctFold_key_mem canon pack.targets [] hk with h | h
  · simp at h
  · rcases h with ⟨t, htm, q, hq, hd, hcq⟩
    exact hno t htm q hq hd hcq

theorem filterMap_if_length (cond : String → Bool) (l : List String) :
    (l.filterMap (fun p => if cond p then none else some (RsFile.Other p))).length
      = (l.filter (fun p => !(cond p))).length := by
  induction l with
  | nil => rfl
  | cons a rest ih =>
      cases h : cond a <;>
        simp [List.filterMap_cons, List.filter_cons, h, ih]

theorem find_rs_files_count (canon : String → String) (pack : RPackage) :
    (find_rs_files_in_package canon pack).length
      = (pack.root_rs_files.filter (fun p =>
          !((canonTargets canon pack.targets).any (fun e => e.1 = p)))).length
        + (pack.targets.filter (fun t =>
            t.src_path.isSome && t.existsOnDisk)).length := by
  unfold find_rs_files_in_package
  rw [List.length_append, filterMap_if_length]
  congr 1
  rw [List.length_flatMap]
  have hm : (List.map
        (List.length ∘ fun e => List.map (fun t => into_rs_code_file t.kind e.1) e.2)
        (canonTargets canon pack.targets))
      = ((canonTargets canon pack.targets).map (fun e => e.2.length)) := by
    apply List.map_congr_left
    intro e _
    simp
  rw [hm]
  have hs := ctFold_sizes canon pack.targets [] (by simp)
  unfold canonTargets
  rw [hs]
  simp

/-- C5: every declared target with an on-disk entry path is emitted as one
classification record at its canonical path through `into_rs_code_file` —
in particular a library target and a binary target sharing one canonical
path yield both a `LibRoot` and a `BinRoot` record; a walked file matching
no target is emitted as `Other`; and the total number of records is the
number of unmatched walked files plus one record per qualifying target
(so coinciding targets are not deduplicated). -/
theorem c5_classifier_one_record_per_target (canon : String → String)
    (pack : RPackage) :
    (∀ t ∈ pack.targets, ∀ q, t.src_path = some q → t.existsOnDisk = true →
        into_rs_code_file t.kind (canon q) ∈ find_rs_files_in_package canon pack)
    ∧ (∀ q₁ q₂, (⟨TargetKind.Lib, some q₁, true⟩ : RTarget) ∈ pack.targets →
        (⟨TargetKind.Bin, some q₂, true⟩ : RTarget) ∈ pack.targets →
        canon q₁ = canon q₂ →
        RsFile.LibRoot (canon q₁) ∈ find_rs_files_in_package canon pack
          ∧ RsFile.BinRoot (canon q₁) ∈ find_rs_files_in_package canon pack)
    ∧ (∀ w ∈ pack.root_rs_files,
        (∀ t ∈ pack.targets, ∀ q, t.src_path = some q →
          t.existsOnDisk = true → canon q ≠ w) →
        RsFile.Other w ∈ find_rs_files_in_package canon pack)
    ∧ (find_rs_files_in_package canon pack).length
        = (pack.root_rs_files.filter (fun p =>
            !((canonTargets canon pack.targets).any (fun e => e.1 = p)))).length
          + (pack.targets.filter (fun t =>
              t.src_path.isSome && t.existsOnDisk)).length := by
  refine ⟨fun t ht q hq hd => target_record_mem canon pack ht hq hd, ?_,
    fun w hw hno => other_record_mem canon pack hw hno,
    find_rs_files_count canon pack⟩
  intro q₁ q₂ h1 h2 hqq
  refine ⟨target_record_mem canon pack h1 rfl rfl, ?_⟩
  have hb := target_record_mem canon pack h2 rfl rfl
  rw [hqq]
  exact hb

/-- Witness for C5: a concrete package whose library and binary targets
share the entry path `/r/entry.rs` gets both root records, and the
unmatched walked file `/r/other.rs` is classified `Other`. -/
theorem c5_witness :
    RsFile.LibRoot "/r/entry.rs" ∈
        find_rs_files_in_package id
          ⟨"pk", ["/r/other.rs"],
            [⟨TargetKind.Lib, some "/r/entry.rs", true⟩,
             ⟨TargetKind.Bin, some "/r/entry.rs", true⟩]⟩
    ∧ RsFile.BinRoot "/r/entry.rs" ∈
        find_rs_files_in_package id
          ⟨"pk", ["/r/other.rs"],
            [⟨TargetKind.Lib, some "/r/entry.rs", true⟩,
             ⟨TargetKind.Bin, some "/r/entry.rs", true⟩]⟩
    ∧ RsFile.Other "/r/other.rs" ∈
        find_rs_files_in_package id
          ⟨"pk", ["/r/other.rs"],
            [⟨TargetKind.Lib, some "/r/entry.rs", true⟩,
             ⟨TargetKind.Bin, some "/r/entry.rs", true⟩]⟩ := by
  obtain ⟨-, h2, h3, -⟩ := c5_classifier_one_record_per_target id
    ⟨"pk", ["/r/other.rs"],
      [⟨TargetKind.Lib, some "/r/entry.rs", true⟩,
       ⟨TargetKind.Bin, some "/r/entry.rs", true⟩]⟩
  have hb := h2 "/r/entry.rs" "/r/entry.rs" (by simp) (by simp) rfl
  refine ⟨hb.1, hb.2, h3 "/r/other.rs" (by simp) ?_⟩
  intro t ht q hq hd
  have ht' : t = (⟨TargetKind.Lib, some "/r/entry.rs", true⟩ : RTarget)
      ∨ t = (⟨TargetKind.Bin, some "/r/entry.rs", true⟩ : RTarget) := by
    simpa using ht
  rcases ht' with rfl | rfl <;>
    · simp only at hq
      injection hq with hq
      rw [← hq]
      decide

/-! ## Characterization of the dep-info parser and reconciliation (C7) -/

theorem parse_lines_eq (ls : List String) :
    parse_rustc_dep_info_lines ls =
      if ls.any (fun l => parseDepLine l = some none) then
        PanicOr.panic depPanicMsg
      else PanicOr.ok (ls.filterMap (fun l => (parseDepLine l).join)) := by
  induction ls with
  | nil => rfl
  | cons l rest ih =>
      simp only [parse_rustc_dep_info_lines]
      cases hl : parseDepLine l with
      | none =>
          rw [ih]
          simp [List.any_cons, List.filterMap_cons, hl]
      | some o =>
          cases o with
          | none => simp [List.any_cons, hl]
          | some entry =>
              rw [ih]
              by_cases hp : rest.any (fun l => parseDepLine l = some none) = true
              · simp [List.any_cons, hl, hp]
              · simp [List.any_cons, hl, hp, List.filterMap_cons]

theorem parse_panic_msg {ls : List String} {msg : String}
    (h : parse_rustc_dep_info_lines ls = PanicOr.panic msg) :
    msg = depPanicMsg := by
  rw [parse_lines_eq] at h
  by_cases hp : ls.any (fun l => parseDepLine l = some none) = true
  · rw [if_pos hp] at h
    injection h with h
    exact h.symm
  · rw [if_neg hp] at h
    cases h

theorem parse_lines_panic_iff (ls : List String) :
    (∃ msg, parse_rustc_dep_info_lines ls = PanicOr.panic msg)
      ↔ ∃ l ∈ ls, parseDepLine l = some none := by
  rw [parse_lines_eq]
  by_cases h : ls.any (fun l => parseDepLine l = some none) = true
  · rw [if_pos h]
    simp only [List.any_eq_true, decide_eq_true_eq] at h
    exact ⟨fun _ => h, fun _ => ⟨depPanicMsg, rfl⟩⟩
  · rw [if_neg h]
    constructor
    · rintro ⟨msg, hm⟩
      cases hm
    · intro hex
      exfalso
      apply h
      simp only [List.any_eq_true, decide_eq_true_eq]
      exact hex

theorem parse_lines_ok_inputs (ls : List String)
    (xs : List (String × List String))
    (h : parse_rustc_dep_info_lines ls = PanicOr.ok xs) (d : String) :
    d ∈ xs.flatMap (·.2)
      ↔ ∃ l ∈ ls, ∃ entry, parseDepLine l = some (some entry) ∧ d ∈ entry.2 := by
  rw [parse_lines_eq] at h
  by_cases hp : ls.any (fun l => parseDepLine l = some none) = true
  · rw [if_pos hp] at h
    cases h
  · rw [if_neg hp] at h
    injection h with h
    rw [← h]
    simp only [List.mem_flatMap, List.mem_filterMap, Option.join_eq_some]
    constructor
    · rintro ⟨entry, ⟨l, hl, hj⟩, hd⟩
      exact ⟨l, hl, entry, hj, hd⟩
    · rintro ⟨l, hl, entry, hj, hd⟩
      exact ⟨entry, ⟨l, hl, hj⟩, hd⟩

theorem parse_file_panic_norm (f : String) :
    (∃ msg, parse_rustc_dep_info f = PanicOr.panic msg)
      ↔ parse_rustc_dep_info f = PanicOr.panic depPanicMsg := by
  constructor
  · rintro ⟨msg, h⟩
    have := @parse_panic_msg (rustLines f) msg h
    rw [← this]
    exact h
  · intro h
    exact ⟨depPanicMsg, h⟩

theorem exists_mem_perm {α : Type} {l₁ l₂ : List α} (h : l₁.Perm l₂)
    (P : α → Prop) : (∃ x ∈ l₁, P x) ↔ ∃ x ∈ l₂, P x := by
  constructor <;> rintro ⟨x, hx, hP⟩
  · exact ⟨x, h.mem_iff.mp hx, hP⟩
  · exact ⟨x, h.mem_iff.mpr hx, hP⟩

theorem exists_mem_forall2 {α β : Type} {l₁ : List α} {l₂ : List β}
    {R : α → β → Prop} (h : List.Forall₂ R l₁ l₂) {P : α → Prop}
    {Q : β → Prop} (hiff : ∀ a b, R a b → (P a ↔ Q b)) :
    (∃ a ∈ l₁, P a) ↔ ∃ b ∈ l₂, Q b := by
  induction h with
  | nil => simp
  | @cons a b la lb hR hrest ih =>
      constructor
      · rintro ⟨x, hx, hP⟩
        rcases List.mem_cons.mp hx with rfl | hx'
        · exact ⟨b, List.mem_cons_self b lb, (hiff x b hR).mp hP⟩
        · rcases ih.mp ⟨x, hx', hP⟩ with ⟨y, hy, hQ⟩
          exact ⟨y, List.mem_cons_of_mem b hy, hQ⟩
      · rintro ⟨y, hy, hQ⟩
        rcases List.mem_cons.mp hy with rfl | hy'
        · exact ⟨a, List.mem_cons_self a la, (hiff a y hR).mpr hQ⟩
        · rcases ih.mpr ⟨y, hy', hQ⟩ with ⟨x, hx, hP⟩
          exact ⟨x, List.mem_cons_of_mem a hx, hP⟩

theorem lineperm_panic_iff {f g : String}
    (hp : (rustLines g).Perm (rustLines f)) :
    ((∃ msg, parse_rustc_dep_info g = PanicOr.panic msg)
      ↔ ∃ msg, parse_rustc_dep_info f = PanicOr.panic msg) := by
  unfold parse_rustc_dep_info
  rw [parse_lines_panic_iff, parse_lines_panic_iff]
  exact exists_mem_perm hp _

theorem lineperm_fileInputs_mem {f g : String}
    (hp : (rustLines g).Perm (rustLines f)) (d : String) :
    d ∈ fileInputs g ↔ d ∈ fileInputs f := by
  cases h1 : parse_rustc_dep_info f with
  | panic msg1 =>
      rcases (lineperm_panic_iff hp).mpr ⟨msg1, h1⟩ with ⟨msg2, h2⟩
      simp [fileInputs, h1, h2]
  | ok xs =>
      cases h2 : parse_rustc_dep_info g with
      | panic msg2 =>
          rcases (lineperm_panic_iff hp).mp ⟨msg2, h2⟩ with ⟨msg1, h1'⟩
          rw [h1] at h1'
          cases h1'
      | ok ys =>
          simp only [fileInputs, h1, h2]
          rw [parse_lines_ok_inputs (rustLines g) ys h2 d,
            parse_lines_ok_inputs (rustLines f) xs h1 d]
          exact exists_mem_perm hp _

theorem hm_keys_insert_mem (m : List (String × Nat)) (k : String) (v : Nat)
    (p : String) :
    p ∈ hm_keys (hm_insert m k v) ↔ p ∈ hm_keys m ∨ p = k := by
  unfold hm_insert hm_keys
  by_cases h : m.any (fun e => e.1 = k) = true
  · rw [if_pos h]
    rw [List.map_map]
    constructor
    · intro hpm
      rcases List.mem_map.mp hpm with ⟨e, he, hfe⟩
      by_cases hek : e.1 = k
      · right
        simp only [Function.comp, if_pos hek] at hfe
        exact hfe.symm
      · left
        simp only [Function.comp, if_neg hek] at hfe
        exact List.mem_map.mpr ⟨e, he, hfe⟩
    · intro hpm
      rcases hpm with hpm | hpm
      · rcases List.mem_map.mp hpm with ⟨e, he, hfe⟩
        refine List.mem_map.mpr ⟨e, he, ?_⟩
        by_cases hek : e.1 = k
        · simp only [Function.comp, if_pos hek]
          rw [← hek]
          exact hfe
        · simp only [Function.comp, if_neg hek]
          exact hfe
      · rcases List.any_eq_true.mp h with ⟨e, he, hek⟩
        have hek' : e.1 = k := by simpa using hek
        refine List.mem_map.mpr ⟨e, he, ?_⟩
        simp only [Function.comp, if_pos hek']
        exact hpm.symm
  · rw [if_neg h]
    rw [List.map_append]
    simp

theorem hm_keys_foldl_insert (f : String → String) (ts : List String)
    (m : List (String × Nat)) (p : String) :
    p ∈ hm_keys (ts.foldl (fun acc t => hm_insert acc (f t) 0) m)
      ↔ p ∈ hm_keys m ∨ ∃ t ∈ ts, f t = p := by
  induction ts generalizing m with
  | nil => simp
  | cons t rest ih =>
      rw [List.foldl_cons, ih (hm_insert m (f t) 0)]
      rw [hm_keys_insert_mem m (f t) 0 p]
      constructor
      · rintro ((hm' | hft) | ⟨u, hu, hfu⟩)
        · left; exact hm'
        · right; exact ⟨t, List.mem_cons_self t rest, hft.symm⟩
        · right; exact ⟨u, List.mem_cons_of_mem t hu, hfu⟩
      · rintro (hm' | ⟨u, hu, hfu⟩)
        · left; left; exact hm'
        · rcases List.mem_cons.mp hu with rfl | hu'
          · left; right; exact hfu.symm
          · right; exact ⟨u, hu', hfu⟩

theorem depFilesFold_panic_iff (canon : String → String) (files : List String)
    (m : List (String × Nat)) :
    (∃ msg, depFilesFold canon m files = PanicOr.panic msg)
      ↔ ∃ f ∈ files, parse_rustc_dep_info f = PanicOr.panic depPanicMsg := by
  induction files generalizing m with
  | nil =>
      simp [depFilesFold]
  | cons f rest ih =>
      simp only [depFilesFold]
      cases hp : parse_rustc_dep_info f with
      | panic msg =>
          have hmsg : msg = depPanicMsg := @parse_panic_msg (rustLines f) msg hp
          constructor
          · intro _
            exact ⟨f, List.mem_cons_self f rest, by rw [hp, hmsg]⟩
          · intro _
            exact ⟨msg, rfl⟩
      | ok deps =>
          constructor
          · intro h
            rcases (ih (insertDeps canon m deps)).mp h with ⟨g, hg, hgp⟩
            exact ⟨g, List.mem_cons_of_mem f hg, hgp⟩
          · rintro ⟨g, hg, hgp⟩
            rcases List.mem_cons.mp hg with rfl | hg'
            · rw [hp] at hgp
              cases hgp
            · exact (ih (insertDeps canon m deps)).mpr ⟨g, hg', hgp⟩

theorem depFilesFold_keys (canon : String → String) (files : List String)
    (m hm : List (String × Nat))
    (h : depFilesFold canon m files = PanicOr.ok hm) (p : String) :
    p ∈ hm_keys hm
      ↔ p ∈ hm_keys m ∨ ∃ f ∈ files, ∃ t ∈ fileInputs f, canon t = p := by
  induction files generalizing m with
  | nil =>
      have hmm : m = hm := by simpa [depFilesFold] using h
      rw [← hmm]
      simp
  | cons f rest ih =>
      simp only [depFilesFold] at h
      cases hp : parse_rustc_dep_info f with
      | panic msg =>
          rw [hp] at h
          cases h
      | ok deps =>
          rw [hp] at h
          rw [ih (insertDeps canon m deps) h]
          have hins : p ∈ hm_keys (insertDeps canon m deps)
              ↔ p ∈ hm_keys m ∨ ∃ t ∈ deps.flatMap (·.2), canon t = p :=
            hm_keys_foldl_insert canon (deps.flatMap (·.2)) m p
          rw [hins]
          have hfi : fileInputs f = deps.flatMap (·.2) := by
            simp [fileInputs, hp]
          constructor
          · rintro ((hm' | ⟨t, ht, hc⟩) | ⟨g, hg, hrest⟩)
            · left; exact hm'
            · right
              refine ⟨f, List.mem_cons_self f rest, t, ?_, hc⟩
              rw [hfi]
              exact ht
            · right; exact ⟨g, List.mem_cons_of_mem f hg, hrest⟩
          · rintro (hm' | ⟨g, hg, t, ht, hc⟩)
            · left; left; exact hm'
            · rcases List.mem_cons.mp hg with rfl | hg'
              · left; right
                rw [hfi] at ht
                exact ⟨t, ht, hc⟩
              · right; exact ⟨g, hg', t, ht, hc⟩

theorem resolve_keys_mem (canon : String → String) (depFiles rs : List String)
    (hm : List (String × Nat))
    (h : resolve_rs_file_deps canon depFiles rs = PanicOr.ok hm) (p : String) :
    p ∈ hm_keys hm
      ↔ (∃ f ∈ depFiles, ∃ t ∈ fileInputs f, canon t = p) ∨ p ∈ rs := by
  unfold resolve_rs_file_deps at h
  cases hf : depFilesFold canon [] depFiles with
  | panic msg =>
      rw [hf] at h
      cases h
  | ok hm0 =>
      rw [hf] at h
      injection h with h
      rw [← h]
      have h2 := hm_keys_foldl_insert (fun x => x) rs hm0 p
      simp only [] at h2
      rw [h2, depFilesFold_keys canon depFiles [] hm0 hf p]
      constructor
      · rintro ((habs | hfiles) | ⟨t, ht, rfl⟩)
        · simp [hm_keys] at habs
        · left; exact hfiles
        · right; exact ht
      · rintro (hfiles | hrs)
        · left; right; exact hfiles
        · right; exact ⟨p, hrs, rfl⟩

theorem resolve_panic_iff (canon : String → String) (depFiles rs : List String) :
    (∃ msg, resolve_rs_file_deps canon depFiles rs = PanicOr.panic msg)
      ↔ ∃ f ∈ depFiles, parse_rustc_dep_info f = PanicOr.panic depPanicMsg := by
  unfold resolve_rs_file_deps
  cases hf : depFilesFold canon [] depFiles with
  | panic msg =>
      constructor
      · intro _
        exact (depFilesFold_panic_iff canon depFiles []).mp ⟨msg, hf⟩
      · intro _
        exact ⟨msg, rfl⟩
  | ok hm0 =>
      constructor
      · rintro ⟨msg, h⟩
        cases h
      · intro hex
        rcases (depFilesFold_panic_iff canon depFiles []).mpr hex with ⟨msg, hmsg⟩
        rw [hf] at hmsg
        cases hmsg

theorem resolve_keySetEq_of_equiv (canon : String → String)
    (rs files files₂ : List String)
    (hpan : (∃ f ∈ files₂, parse_rustc_dep_info f = PanicOr.panic depPanicMsg)
      ↔ ∃ f ∈ files, parse_rustc_dep_info f = PanicOr.panic depPanicMsg)
    (hinp : ∀ t, (∃ f ∈ files₂, t ∈ fileInputs f) ↔ ∃ f ∈ files, t ∈ fileInputs f) :
    keySetEq (resolve_rs_file_deps canon files₂ rs)
      (resolve_rs_file_deps canon files rs) := by
  cases h2 : resolve_rs_file_deps canon files₂ rs with
  | panic msg2 =>
      cases h1 : resolve_rs_file_deps canon files rs with
      | panic msg1 => trivial
      | ok m1 =>
          exfalso
          have hex := (resolve_panic_iff canon files₂ rs).mp ⟨msg2, h2⟩
          rcases (resolve_panic_iff canon files rs).mpr (hpan.mp hex) with ⟨msg, hmsg⟩
          rw [h1] at hmsg
          cases hmsg
  | ok m2 =>
      cases h1 : resolve_rs_file_deps canon files rs with
      | panic msg1 =>
          exfalso
          have hex := (resolve_panic_iff canon files rs).mp ⟨msg1, h1⟩
          rcases (resolve_panic_iff canon files₂ rs).mpr (hpan.mpr hex) with ⟨msg, hmsg⟩
          rw [h2] at hmsg
          cases hmsg
      | ok m1 =>
          show ∀ p, p ∈ hm_keys m2 ↔ p ∈ hm_keys m1
          intro p
          rw [resolve_keys_mem canon files₂ rs m2 h2 p,
            resolve_keys_mem canon files rs m1 h1 p]
          constructor
          · rintro (⟨f, hf, t, ht, hc⟩ | hrs)
            · rcases (hinp t).mp ⟨f, hf, ht⟩ with ⟨g, hg, htg⟩
              exact Or.inl ⟨g, hg, t, htg, hc⟩
            · exact Or.inr hrs
          · rintro (⟨f, hf, t, ht, hc⟩ | hrs)
            · rcases (hinp t).mpr ⟨f, hf, ht⟩ with ⟨g, hg, htg⟩
              exact Or.inl ⟨g, hg, t, htg, hc⟩
            · exact Or.inr hrs

/-- C7: reconciliation is idempotent and order-independent at the level of
the produced canonical path set: processing the dep-listing files twice
(`files ++ files`, in any order), processing them in any order, or
permuting the lines inside each file, yields the same key set in the
reconciled map (and the same panic behavior on malformed files). -/
theorem c7_reconciliation_idempotent_order_independent
    (canon : String → String) (rs files files₂ : List String)
    (hrel : files₂.Perm (files ++ files) ∨ files₂.Perm files
      ∨ List.Forall₂ (fun f g => (rustLines g).Perm (rustLines f)) files files₂) :
    keySetEq (resolve_rs_file_deps canon files₂ rs)
      (resolve_rs_file_deps canon files rs) := by
  apply resolve_keySetEq_of_equiv
  · rcases hrel with hperm | hperm | hfor
    · rw [exists_mem_perm hperm]
      simp [List.mem_append]
    · rw [exists_mem_perm hperm]
    · refine (exists_mem_forall2 hfor ?_).symm
      intro a b hR
      rw [← parse_file_panic_norm a, ← parse_file_panic_norm b]
      exact (lineperm_panic_iff hR).symm
  · intro t
    rcases hrel with hperm | hperm | hfor
    · rw [exists_mem_perm hperm]
      simp [List.mem_append]
    · rw [exists_mem_perm hperm]
    · refine (exists_mem_forall2 hfor ?_).symm
      intro a b hR
      exact (lineperm_fileInputs_mem hR t).symm

/-- Witness for C7: duplicating and reversing a concrete two-file listing
collection leaves the reconciled key set unchanged. -/
theorem c7_witness :
    keySetEq
      (resolve_rs_file_deps id
        ["x: b.rs", "y: a.rs", "x: b.rs", "y: a.rs"] [])
      (resolve_rs_file_deps id ["y: a.rs", "x: b.rs"] []) :=
  c7_reconciliation_idempotent_order_independent id []
    ["y: a.rs", "x: b.rs"] ["x: b.rs", "y: a.rs", "x: b.rs", "y: a.rs"]
    (Or.inl (by decide))

/-! ## The executor under serialized atomic recordings (C8) -/

theorem insertRsArgs_spec (canon : String → String → Option String)
    (cwd : String) (args : List String) (ps : List String)
    (h : rsArgsPaths canon cwd args = some ps) (ctx : InnerCtx) :
    insertRsArgs canon cwd ctx args =
      Except.ok ⟨ps.foldl hs_insert ctx.rs_file_args, ctx.out_dir_args⟩ := by
  induction args generalizing ps ctx with
  | nil =>
      simp only [rsArgsPaths] at h
      injection h with h
      rw [← h]
      rfl
  | cons a rest ih =>
      simp only [rsArgsPaths] at h
      simp only [insertRsArgs]
      by_cases hrs : lowerEndsWithRs a = true
      · rw [if_pos hrs] at h
        rw [if_pos hrs]
        cases hc : canon cwd a with
        | none =>
            rw [hc] at h
            simp at h
        | some p =>
            rw [hc] at h
            have h' : (rsArgsPaths canon cwd rest).map (p :: ·) = some ps := h
            cases hps : rsArgsPaths canon cwd rest with
            | none =>
                rw [hps] at h'
                cases h'
            | some ps' =>
                rw [hps] at h'
                injection h' with h'
                rw [← h']
                exact ih ps' hps ⟨hs_insert ctx.rs_file_args p, ctx.out_dir_args⟩
      · rw [if_neg hrs] at h
        rw [if_neg hrs]
        exact ih ps h ctx

theorem exec_spec (canon : String → String → Option String) (selfCwd : String)
    (ctx : InnerCtx) (inv : Invocation) {p od : String}
    (hreg : invRegisters canon selfCwd inv p)
    (hod : outDirOf inv = some od) :
    exec canon selfCwd ctx inv =
      Except.ok ⟨hs_insert ctx.rs_file_args p,
        hs_insert ctx.out_dir_args od⟩ := by
  obtain ⟨-, hps⟩ := hreg
  unfold exec
  unfold outDirOf at hod
  cases hidx : inv.args.findIdx? (fun s => s = "--out-dir") with
  | none =>
      rw [hidx] at hod
      simp at hod
  | some i =>
      rw [hidx] at hod
      have hod' : inv.args.get? (i + 1) = some od := hod
      dsimp only
      rw [hod', insertRsArgs_spec canon (inv.cwd.getD selfCwd) inv.args [p] hps ctx]
      rfl

theorem execAll_rs_spec (canon : String → String → Option String)
    (selfCwd : String) (regPath : Invocation → String)
    (invs : List Invocation) :
    ∀ ctx : InnerCtx,
      (∀ inv ∈ invs, invRegisters canon selfCwd inv (regPath inv)) →
      ∃ ctx', execAll canon selfCwd ctx invs = Except.ok ctx'
        ∧ ctx'.rs_file_args =
            (invs.map regPath).foldl hs_insert ctx.rs_file_args := by
  induction invs with
  | nil => exact fun ctx _ => ⟨ctx, rfl, rfl⟩
  | cons inv rest ih =>
      intro ctx hreg
      obtain ⟨hsome, hps⟩ := hreg inv (List.mem_cons_self inv rest)
      cases hod : outDirOf inv with
      | none =>
          rw [hod] at hsome
          cases hsome
      | some od =>
          have hexec := exec_spec canon selfCwd ctx inv ⟨hsome, hps⟩ hod
          simp only [execAll]
          rw [hexec]
          obtain ⟨ctx', hctx', hrs⟩ :=
            ih ⟨hs_insert ctx.rs_file_args (regPath inv),
                hs_insert ctx.out_dir_args od⟩
              (fun i hi => hreg i (List.mem_cons_of_mem inv hi))
          exact ⟨ctx', hctx', by rw [hrs]; rfl⟩

theorem foldl_hs_insert_nodup (ps : List String) (acc : List String)
    (hnd : (acc ++ ps).Nodup) : ps.foldl hs_insert acc = acc ++ ps := by
  induction ps generalizing acc with
  | nil => simp
  | cons p rest ih =>
      rw [List.foldl_cons]
      have hdisj := List.disjoint_of_nodup_append hnd
      have hp : p ∉ acc := fun hpa =>
        hdisj hpa (List.mem_cons_self p rest)
      rw [hs_insert, if_neg hp]
      rw [ih (acc ++ [p]) (by simpa using hnd)]
      simp

/-- C8: with the mutex making each invocation's recording one atomic
critical section, an arbitrary interleaving of N parallel invocations is a
permutation of the N atomic recordings; when the invocations each register
one distinct canonical source path (and carry an `--out-dir` argument), no
registration is lost under any such interleaving: the accumulator ends
with exactly N distinct source paths, namely the registered ones. -/
theorem c8_no_lost_registrations (canon : String → String → Option String)
    (selfCwd : String) (regPath : Invocation → String)
    (invs invs₂ : List Invocation) (hperm : invs₂.Perm invs)
    (hreg : ∀ inv ∈ invs, invRegisters canon selfCwd inv (regPath inv))
    (hnd : (invs.map regPath).Nodup) :
    ∃ ctx, execAll canon selfCwd ⟨[], []⟩ invs₂ = Except.ok ctx
      ∧ ctx.rs_file_args.Perm (invs.map regPath)
      ∧ ctx.rs_file_args.length = invs.length
      ∧ ctx.rs_file_args.Nodup := by
  have hreg₂ : ∀ inv ∈ invs₂, invRegisters canon selfCwd inv (regPath inv) :=
    fun i hi => hreg i (hperm.subset hi)
  obtain ⟨ctx, hctx, hrs⟩ :=
    execAll_rs_spec canon selfCwd regPath invs₂ ⟨[], []⟩ hreg₂
  have hmapperm : (invs₂.map regPath).Perm (invs.map regPath) := hperm.map regPath
  have hnd₂ : (invs₂.map regPath).Nodup := hmapperm.nodup_iff.mpr hnd
  have hfold : (invs₂.map regPath).foldl hs_insert [] = invs₂.map regPath := by
    simpa using foldl_hs_insert_nodup (invs₂.map regPath) [] (by simpa using hnd₂)
  refine ⟨ctx, hctx, ?_, ?_, ?_⟩
  · rw [hrs]
    simp only [hfold]
    exact hmapperm
  · rw [hrs]
    simp only [hfold]
    rw [List.length_map]
    exact hperm.length_eq
  · rw [hrs]
    simp only [hfold]
    exact hnd₂

/-- Witness for C8: two concrete invocations registering `a.rs` and
`b.rs`, run in swapped order, end with exactly those two distinct paths. -/
theorem c8_witness :
    ∃ ctx, execAll (fun _ a => some a) "/w" ⟨[], []⟩
        [⟨["--out-dir", "o2", "b.rs"], none⟩, ⟨["--out-dir", "o1", "a.rs"], none⟩]
        = Except.ok ctx
      ∧ ctx.rs_file_args.Perm
          (List.map (fun inv => inv.args.getD 2 "")
            [(⟨["--out-dir", "o1", "a.rs"], none⟩ : Invocation),
             ⟨["--out-dir", "o2", "b.rs"], none⟩])
      ∧ ctx.rs_file_args.length = 2
      ∧ ctx.rs_file_args.Nodup :=
  c8_no_lost_registrations (fun _ a => some a) "/w"
    (fun inv => inv.args.getD 2 "")
    [⟨["--out-dir", "o1", "a.rs"], none⟩, ⟨["--out-dir", "o2", "b.rs"], none⟩]
    [⟨["--out-dir", "o2", "b.rs"], none⟩, ⟨["--out-dir", "o1", "a.rs"], none⟩]
    (by decide) (by decide) (by decide)

end Siderophile
